import Mathlib

/-!
Verification of the politeia referendum / anchor prototype.

The development shallowly embeds the Go sources of the repository:
* the `referendum` package (CastVote, checkActive, GetResults, CreateReferendum),
* the `politeiad` daemon referendum entry points together with the record
  status machine,
* the `gitbe` commit-log anchor index (extractNextCommit,
  readLastAnchorRecord, readUnconfirmedAnchorRecord),
* the `gitbe` JSON database serializers (encodeAnchor / DecodeAnchor and
  friends).

Go machine integers are modelled as Nat / Int, byte slices as lists of
Nat below 256 or as strings where the code only moves them around,
Go maps as association lists, wall-clock time as an explicit parameter,
and Go errors / index-out-of-range panics as explicit result
constructors.
-/

namespace Politeia

namespace referendum

/-- Public identities are opaque keys of the vote map; only equality is used. -/
abbrev Identity := String

/-- The vote values of the api package: v1.NullVote, v1.Approve, v1.NotApprove.
The api package is not part of the sources here; the three constants are the
ones the referendum package uses. -/
inductive VoteT
  | NullVote
  | Approve
  | NotApprove
deriving DecidableEq, Repr

/-- The two error messages CastVote can produce. -/
inductive RefError
  | referendumClosed
  | alreadyVoted
deriving DecidableEq, Repr

/-- Go struct Vote: a user together with the vote they cast. -/
structure Vote where
  User : Identity
  VoteCast : VoteT
deriving DecidableEq, Repr

/-- Go struct Referendum. The Votes map (identity to vote) is modelled as an
association list with at most one entry per key. -/
structure Referendum where
  Token : String
  startTime : Int
  endTime : Int
  isActive : Bool
  executed : Bool
  Votes : List (Identity × VoteT)
deriving DecidableEq, Repr

/-- Backend record status codes (backend.MDStatusT).  The backend package is
not among the sources; the constants are exactly the ones the daemon and the
referendum package name. -/
inductive MDStatusT
  | invalid
  | unvetted
  | iterationUnvetted
  | vetted
  | censored
  | referendum
  | vettedFinal
  | censoredFinal
deriving DecidableEq, Repr

/-- Go: checkActive.  Sets isActive to false when the current time is
strictly past endTime, then returns the flag.  The mutation of the receiver is
modelled by returning the updated referendum. -/
def checkActive (r : Referendum) (currTime : Int) : Referendum × Bool :=
  let r := if currTime > r.endTime then { r with isActive := false } else r
  (r, r.isActive)

/-- Go map assignment m[k] = v on the association-list model: replace the
binding when the key is present, append it otherwise. -/
def mapSet (m : List (Identity × VoteT)) (k : Identity) (v : VoteT) :
    List (Identity × VoteT) :=
  match m with
  | [] => [(k, v)]
  | (k0, v0) :: rest =>
    if k0 = k then (k, v) :: rest else (k0, v0) :: mapSet rest k v

/-- Go: (r *Referendum) CastVote(v Vote) error.  Checks activity first, then
the duplicate-vote condition, then inserts the vote. -/
def CastVote (r : Referendum) (currTime : Int) (v : Vote) :
    Referendum × Except RefError Unit :=
  let res := checkActive r currTime
  let r := res.1
  if !res.2 then
    (r, Except.error RefError.referendumClosed)
  else
    let user := v.User
    if (r.Votes.lookup user).isSome then
      (r, Except.error RefError.alreadyVoted)
    else
      ({ r with Votes := mapSet r.Votes user v.VoteCast }, Except.ok ())

/-- Go: results := make(map[v1.VoteT]int); for _, vote := range r.Votes
results[vote] += 1.  The tally map is modelled as a function from vote values
to counts, built by the same left fold over the vote map entries. -/
def tallyFold (votes : List (Identity × VoteT)) : VoteT → Nat :=
  votes.foldl (fun results p t => if t = p.2 then results t + 1 else results t)
    (fun _ => 0)

/-- Specification view of the tally: the number of entries of the vote map
carrying the given vote value. -/
def countVote (votes : List (Identity × VoteT)) (t : VoteT) : Nat :=
  (votes.filter (fun p => p.2 = t)).length

/-- Go: (r *Referendum) GetResults() (ReferendumResults, backend.MDStatusT,
error).  Fails while checkActive reports the referendum active; otherwise
tabulates the votes and picks VettedFinal when Approve strictly outnumbers
NotApprove, CensoredFinal otherwise. -/
def GetResults (r : Referendum) (currTime : Int) :
    Referendum × Except String ((VoteT → Nat) × MDStatusT) :=
  let res := checkActive r currTime
  let r := res.1
  if res.2 then
    (r, Except.error "Referendum is still active")
  else
    let results := tallyFold r.Votes
    let status :=
      if results VoteT.Approve > results VoteT.NotApprove then
        MDStatusT.vettedFinal
      else
        MDStatusT.censoredFinal
    (r, Except.ok (results, status))

/-- Modelled from the spec: v1.VotePeriod is a configured constant (seconds)
of the api package, which is not among the sources; the repository README
demo states the default of 20 seconds. -/
def VotePeriod : Int := 20

/-- Go: CreateReferendum(user, pr).  Builds the referendum with
endTime = now + VotePeriod and an empty vote map, registers it in
AllReferendums, then casts a NullVote for the calling user (the registry entry
shares the vote map, so it sees the NullVote as well).  The record token and
the wall clock are passed explicitly. -/
def CreateReferendum (user : Identity) (refToken : String) (now : Int) :
    Referendum :=
  let ref : Referendum :=
    { Token := refToken
      startTime := now
      endTime := now + VotePeriod
      isActive := true
      executed := false
      Votes := [] }
  let newVote : Vote := { User := user, VoteCast := VoteT.NullVote }
  (CastVote ref now newVote).1

theorem countVote_cons (p : Identity × VoteT) (rest : List (Identity × VoteT))
    (t : VoteT) :
    countVote (p :: rest) t
      = (if p.2 = t then 1 else 0) + countVote rest t := by
  by_cases h : p.2 = t
  · simp [countVote, h]
    omega
  · simp [countVote, h]

theorem tallyFold_go (votes : List (Identity × VoteT)) :
    ∀ (acc : VoteT → Nat) (t : VoteT),
      votes.foldl (fun results p u => if u = p.2 then results u + 1 else results u)
          acc t
        = acc t + countVote votes t := by
  induction votes with
  | nil =>
    intro acc t
    simp [countVote]
  | cons p rest ih =>
    intro acc t
    have step :
        (p :: rest).foldl
            (fun results q u => if u = q.2 then results u + 1 else results u) acc
          = rest.foldl
              (fun results q u => if u = q.2 then results u + 1 else results u)
              (fun u => if u = p.2 then acc u + 1 else acc u) := rfl
    rw [step, ih, countVote_cons]
    by_cases h : t = p.2
    · subst h
      simp
      omega
    · have h2 : ¬ (p.2 = t) := fun hh => h hh.symm
      simp [h, h2]

theorem tallyFold_eq_countVote (votes : List (Identity × VoteT)) (t : VoteT) :
    tallyFold votes t = countVote votes t := by
  have h := tallyFold_go votes (fun _ => 0) t
  simpa [tallyFold] using h

/-- Sample referendum data used by the concrete witnesses below. -/
def sampleVotes : List (Identity × VoteT) :=
  [("u1", VoteT.Approve), ("u2", VoteT.NotApprove)]

/-- An open referendum (EndTime 10) with no votes yet. -/
def sampleOpenRef : Referendum :=
  { Token := "token1", startTime := 0, endTime := 10, isActive := true,
    executed := false, Votes := [] }

/-- A referendum (EndTime 10) in which u1 has already voted Approve. -/
def sampleVotedRef : Referendum :=
  { Token := "token1", startTime := 0, endTime := 10, isActive := true,
    executed := false, Votes := [("u1", VoteT.Approve)] }

/-- A referendum (EndTime 10) with one Approve and one NotApprove vote. -/
def sampleTiedRef : Referendum :=
  { Token := "token1", startTime := 0, endTime := 10, isActive := true,
    executed := false, Votes := sampleVotes }

theorem checkActive_fst_Votes (r : Referendum) (currTime : Int) :
    (checkActive r currTime).1.Votes = r.Votes := by
  by_cases h : currTime > r.endTime <;> simp [checkActive, h]

/-- C1: whenever GetResults on a referendum succeeds, the returned target
status is VettedFinal when the Approve count strictly exceeds the NotApprove
count and CensoredFinal otherwise; a tie yields CensoredFinal. -/
theorem getResults_status_tabulation (r : Referendum) (currTime : Int)
    (res : VoteT → Nat) (st : MDStatusT)
    (h : (GetResults r currTime).2 = Except.ok (res, st)) :
    st = (if countVote r.Votes VoteT.Approve > countVote r.Votes VoteT.NotApprove
        then MDStatusT.vettedFinal else MDStatusT.censoredFinal) ∧
    (countVote r.Votes VoteT.Approve = countVote r.Votes VoteT.NotApprove →
      st = MDStatusT.censoredFinal) := by
  unfold GetResults at h
  by_cases hact : (checkActive r currTime).2
  · simp [hact] at h
  · simp [hact, checkActive_fst_Votes, tallyFold_eq_countVote] at h
    constructor
    · exact h.2.symm
    · intro heq
      rw [← h.2]
      simp [heq]

theorem getResults_status_tabulation_witness :
    MDStatusT.censoredFinal
      = (if countVote sampleVotes VoteT.Approve > countVote sampleVotes VoteT.NotApprove
          then MDStatusT.vettedFinal else MDStatusT.censoredFinal) ∧
    (countVote sampleVotes VoteT.Approve = countVote sampleVotes VoteT.NotApprove →
      MDStatusT.censoredFinal = MDStatusT.censoredFinal) :=
  getResults_status_tabulation sampleTiedRef 11 (tallyFold sampleVotes)
    MDStatusT.censoredFinal rfl

/-- C3 counterexample: a vote arriving exactly at EndTime (current time equal
to endTime) is accepted and inserted into the vote map, although the claim
says it must be rejected. -/
theorem castVote_at_endTime_accepted :
    (CastVote sampleOpenRef 10 { User := "u1", VoteCast := VoteT.Approve }).2
        = Except.ok () ∧
    (CastVote sampleOpenRef 10
        { User := "u1", VoteCast := VoteT.Approve }).1.Votes
        = [("u1", VoteT.Approve)] := by
  constructor <;> rfl

/-- C3 (amended): CastVote rejects with ReferendumClosed, and inserts no vote,
whenever the current time is strictly greater than EndTime; a vote arriving
exactly at EndTime is still accepted. -/
theorem castVote_after_endTime_rejects (r : Referendum) (currTime : Int)
    (v : Vote) (h : r.endTime < currTime) :
    (CastVote r currTime v).2 = Except.error RefError.referendumClosed ∧
    (CastVote r currTime v).1.Votes = r.Votes := by
  unfold CastVote checkActive
  simp [show currTime > r.endTime from h]

theorem castVote_after_endTime_rejects_witness :
    (CastVote sampleOpenRef 11 { User := "u1", VoteCast := VoteT.Approve }).2
        = Except.error RefError.referendumClosed ∧
    (CastVote sampleOpenRef 11
        { User := "u1", VoteCast := VoteT.Approve }).1.Votes
        = sampleOpenRef.Votes :=
  castVote_after_endTime_rejects sampleOpenRef 11
    { User := "u1", VoteCast := VoteT.Approve } (by decide)

/-- C4 counterexample: u1 has already voted, yet a second CastVote by u1
after EndTime returns ReferendumClosed, not AlreadyVoted. -/
theorem castVote_closed_duplicate_not_alreadyVoted :
    (CastVote sampleVotedRef 11 { User := "u1", VoteCast := VoteT.NotApprove }).2
        = Except.error RefError.referendumClosed ∧
    Except.error RefError.referendumClosed
        ≠ (Except.error RefError.alreadyVoted : Except RefError Unit) := by
  constructor
  · rfl
  · simp

/-- C4 (amended): when the voting identity is already a key of the vote map,
CastVote leaves the vote map unchanged and never succeeds; it returns
AlreadyVoted whenever the referendum is still open (isActive and current time
at most EndTime), and ReferendumClosed once the current time is past EndTime. -/
theorem castVote_duplicate (r : Referendum) (currTime : Int) (v : Vote)
    (h : (r.Votes.lookup v.User).isSome) :
    (CastVote r currTime v).1.Votes = r.Votes ∧
    (∀ u, (CastVote r currTime v).2 ≠ Except.ok u) ∧
    (r.isActive = true → currTime ≤ r.endTime →
      (CastVote r currTime v).2 = Except.error RefError.alreadyVoted) := by
  unfold CastVote checkActive
  by_cases hgt : currTime > r.endTime
  · refine ⟨by simp [hgt], by simp [hgt], ?_⟩
    intro _ hle
    omega
  · by_cases hact : r.isActive <;> simp [hgt, hact, h]

theorem castVote_duplicate_witness :
    (CastVote sampleVotedRef 5 { User := "u1", VoteCast := VoteT.NotApprove }).1.Votes
        = sampleVotedRef.Votes ∧
    (CastVote sampleVotedRef 5 { User := "u1", VoteCast := VoteT.NotApprove }).2
        = Except.error RefError.alreadyVoted := by
  have h := castVote_duplicate sampleVotedRef 5
    { User := "u1", VoteCast := VoteT.NotApprove } (by decide)
  exact ⟨h.1, h.2.2 rfl (by decide)⟩

/-- C8 counterexample: with the current time exactly equal to EndTime,
GetResults still rejects with the referendum-still-active error, although the
claim says it must succeed at EndTime. -/
theorem getResults_at_endTime_rejects :
    (GetResults sampleVotedRef 10).2 = Except.error "Referendum is still active" :=
  rfl

/-- C8 (amended): GetResults rejects with the referendum-still-active error
whenever the referendum is active and the current time is at most EndTime, and
succeeds with the tabulated votes and final status whenever the current time
is strictly past EndTime. -/
theorem getResults_boundary (r : Referendum) (currTime : Int) :
    (r.isActive = true → currTime ≤ r.endTime →
      (GetResults r currTime).2 = Except.error "Referendum is still active") ∧
    (r.endTime < currTime →
      (GetResults r currTime).2 = Except.ok (tallyFold r.Votes,
        if countVote r.Votes VoteT.Approve > countVote r.Votes VoteT.NotApprove
        then MDStatusT.vettedFinal else MDStatusT.censoredFinal)) := by
  unfold GetResults checkActive
  by_cases hgt : currTime > r.endTime
  · constructor
    · intro _ hle
      omega
    · intro _
      simp [hgt, tallyFold_eq_countVote]
  · constructor
    · intro hact _
      simp [hgt, hact]
    · intro hlt
      omega

theorem getResults_boundary_witness :
    (GetResults sampleVotedRef 5).2 = Except.error "Referendum is still active" ∧
    (GetResults sampleVotedRef 11).2 = Except.ok (tallyFold sampleVotedRef.Votes,
      if countVote sampleVotedRef.Votes VoteT.Approve
          > countVote sampleVotedRef.Votes VoteT.NotApprove
      then MDStatusT.vettedFinal else MDStatusT.censoredFinal) :=
  ⟨(getResults_boundary sampleVotedRef 5).1 rfl (by decide),
   (getResults_boundary sampleVotedRef 11).2 (by decide)⟩

/-- C6 counterexample: the referendum creator is blocked from voting, but a
CastVote by the creator after EndTime is rejected with ReferendumClosed, not
with the AlreadyVoted error the claim names. -/
theorem creator_vote_after_close_gets_closed_error :
    (CastVote (CreateReferendum "alice" "token1" 0) 21
        { User := "alice", VoteCast := VoteT.Approve }).2
      = Except.error RefError.referendumClosed ∧
    Except.error RefError.referendumClosed
      ≠ (Except.error RefError.alreadyVoted : Except RefError Unit) := by
  constructor
  · rfl
  · simp

/-- C6 (amended): CreateReferendum records the caller with a NullVote; every
later CastVote by the creator fails, with AlreadyVoted while the current time
is at most EndTime and with ReferendumClosed after EndTime; and the NullVote
contributes to neither the Approve count nor the NotApprove count used by
GetResults. -/
theorem createReferendum_creator_null_vote (user : Identity) (refToken : String)
    (now : Int) :
    (CreateReferendum user refToken now).Votes = [(user, VoteT.NullVote)] ∧
    (∀ currTime v, currTime ≤ now + VotePeriod →
      (CastVote (CreateReferendum user refToken now) currTime
        { User := user, VoteCast := v }).2 = Except.error RefError.alreadyVoted) ∧
    (∀ currTime v u, (CastVote (CreateReferendum user refToken now) currTime
        { User := user, VoteCast := v }).2 ≠ Except.ok u) ∧
    countVote (CreateReferendum user refToken now).Votes VoteT.Approve = 0 ∧
    countVote (CreateReferendum user refToken now).Votes VoteT.NotApprove = 0 := by
  have hnotgt : ¬ (now > now + VotePeriod) := by
    unfold VotePeriod
    omega
  have hvotes : (CreateReferendum user refToken now).Votes = [(user, VoteT.NullVote)] := by
    unfold CreateReferendum CastVote checkActive
    simp [hnotgt, mapSet]
  have hlookup : (((CreateReferendum user refToken now).Votes).lookup user).isSome := by
    rw [hvotes]
    simp
  have hend : (CreateReferendum user refToken now).endTime = now + VotePeriod := by
    unfold CreateReferendum CastVote checkActive
    simp [hnotgt]
  have hdup := fun currTime v => castVote_duplicate (CreateReferendum user refToken now)
    currTime { User := user, VoteCast := v } hlookup
  have hactive : (CreateReferendum user refToken now).isActive = true := by
    unfold CreateReferendum CastVote checkActive
    simp [hnotgt]
  refine ⟨hvotes, ?_, ?_, ?_, ?_⟩
  · intro currTime v hle
    exact (hdup currTime v).2.2 hactive (by rw [hend]; exact hle)
  · intro currTime v u
    exact (hdup currTime v).2.1 u
  · rw [hvotes]
    simp [countVote]
  · rw [hvotes]
    simp [countVote]

theorem createReferendum_creator_null_vote_witness :
    (CreateReferendum "alice" "token1" 0).Votes = [("alice", VoteT.NullVote)] ∧
    (CastVote (CreateReferendum "alice" "token1" 0) 5
        { User := "alice", VoteCast := VoteT.Approve }).2
      = Except.error RefError.alreadyVoted ∧
    countVote (CreateReferendum "alice" "token1" 0).Votes VoteT.Approve = 0 ∧
    countVote (CreateReferendum "alice" "token1" 0).Votes VoteT.NotApprove = 0 := by
  have h := createReferendum_creator_null_vote "alice" "token1" 0
  exact ⟨h.1, h.2.1 5 VoteT.Approve (by decide), h.2.2.2.1, h.2.2.2.2⟩

end referendum

namespace politeiad

open referendum (MDStatusT)

/-- Modelled from the spec: the status-transition gate that the backend
applies in SetUnvettedStatus.  The gitbe backend implementation is not among
the sources (only its callers in the daemon are); the table is the
legal-transition table of the record state machine, spec section 4.4.
SetUnvettedStatus installs the requested status when the transition is legal
and rejects with ErrInvalidTransition (leaving the status unchanged)
otherwise. -/
def validTransition : MDStatusT → MDStatusT → Bool
  | MDStatusT.unvetted, MDStatusT.iterationUnvetted => true
  | MDStatusT.iterationUnvetted, MDStatusT.iterationUnvetted => true
  | MDStatusT.unvetted, MDStatusT.vetted => true
  | MDStatusT.iterationUnvetted, MDStatusT.vetted => true
  | MDStatusT.unvetted, MDStatusT.censored => true
  | MDStatusT.iterationUnvetted, MDStatusT.censored => true
  | MDStatusT.censored, MDStatusT.referendum => true
  | MDStatusT.referendum, MDStatusT.vettedFinal => true
  | MDStatusT.referendum, MDStatusT.censoredFinal => true
  | MDStatusT.vetted, MDStatusT.vetted => true
  | _, _ => false

/-- The daemon-visible state of a single record token: its backend status,
whether AllReferendums holds a referendum for the token, and how many times
referendum.CreateReferendum has run for it. -/
structure TokenState where
  status : MDStatusT
  hasReferendum : Bool
  refCreations : Nat
deriving DecidableEq, Repr

/-- A fresh record as produced by New: unvetted, no referendum yet. -/
def initState : TokenState :=
  { status := MDStatusT.unvetted, hasReferendum := false, refCreations := 0 }

/-- SetUnvettedStatus on one token, under the transition gate. -/
def setStatusStep (st : TokenState) (s : MDStatusT) : TokenState :=
  if validTransition st.status s then { st with status := s } else st

/-- Go: (p *politeia) referendumCall.  After transport validation it requires
the record status to be Censored, then calls referendum.CreateReferendum,
which registers the referendum in AllReferendums unconditionally, and finally
asks the backend to move the record to MDStatusReferendum. -/
def referendumCallStep (st : TokenState) : TokenState :=
  if st.status = MDStatusT.censored then
    setStatusStep
      { st with hasReferendum := true, refCreations := st.refCreations + 1 }
      MDStatusT.referendum
  else st

/-- Go: (p *politeia) referendumResults.  When GetResults succeeds it asks the
backend to move the record to the final status GetResults chose. -/
def referendumResultsStep (st : TokenState) (approveWins : Bool) : TokenState :=
  setStatusStep st
    (if approveWins then MDStatusT.vettedFinal else MDStatusT.censoredFinal)

/-- The daemon operations that can touch a single record token status. -/
inductive Op
  | setUnvettedStatus (s : MDStatusT)
  | referendumCall
  | referendumResults (approveWins : Bool)

def step (st : TokenState) : Op → TokenState
  | Op.setUnvettedStatus s => setStatusStep st s
  | Op.referendumCall => referendumCallStep st
  | Op.referendumResults b => referendumResultsStep st b

/-- Running a sequence of daemon operations on one token. -/
def run (ops : List Op) (st : TokenState) : TokenState := ops.foldl step st

/-- The inductive invariant behind C7: at most one referendum creation, and
once one happened the record status stays in the post-referendum region. -/
def Inv (st : TokenState) : Prop :=
  st.refCreations ≤ 1 ∧
  (st.refCreations = 1 →
    st.status = MDStatusT.referendum ∨ st.status = MDStatusT.vettedFinal ∨
      st.status = MDStatusT.censoredFinal)

theorem setStatusStep_preserves (st : TokenState) (s : MDStatusT) (h : Inv st) :
    Inv (setStatusStep st s) := by
  unfold Inv setStatusStep at *
  by_cases hv : validTransition st.status s = true
  · simp only [hv, if_pos]
    obtain ⟨h1, h2⟩ := h
    refine ⟨h1, ?_⟩
    intro hc
    have hs := h2 hc
    rcases hs with hs | hs | hs <;> rw [hs] at hv <;> revert hv <;>
      cases s <;> simp [validTransition]
  · simp only [hv, if_neg, Bool.not_eq_true]
    simpa using h

theorem referendumCallStep_preserves (st : TokenState) (h : Inv st) :
    Inv (referendumCallStep st) := by
  obtain ⟨h1, h2⟩ := h
  unfold referendumCallStep
  by_cases hc : st.status = MDStatusT.censored
  · have h0 : st.refCreations = 0 := by
      by_cases he : st.refCreations = 1
      · exfalso
        rcases h2 he with hs | hs | hs <;> rw [hc] at hs <;> simp at hs
      · omega
    simp only [hc, if_pos]
    unfold setStatusStep
    simp [validTransition, hc, h0, Inv]
  · simp only [hc, if_neg]
    exact ⟨h1, h2⟩

theorem step_preserves (st : TokenState) (op : Op) (h : Inv st) :
    Inv (step st op) := by
  cases op with
  | setUnvettedStatus s => exact setStatusStep_preserves st s h
  | referendumCall => exact referendumCallStep_preserves st h
  | referendumResults b => exact setStatusStep_preserves st _ h

theorem run_preserves (ops : List Op) (st : TokenState) (h : Inv st) :
    Inv (run ops st) := by
  induction ops generalizing st with
  | nil => exact h
  | cons op rest ih => exact ih (step st op) (step_preserves st op h)

/-- C7: a referendum creation happens only when the record status is Censored,
and along every sequence of daemon operations starting from a fresh record the
referendum for a token is created at most once, so re-opening is
impossible. -/
theorem referendum_created_at_most_once :
    (∀ st : TokenState, (referendumCallStep st).refCreations > st.refCreations →
      st.status = MDStatusT.censored) ∧
    (∀ ops : List Op, (run ops initState).refCreations ≤ 1) := by
  constructor
  · intro st hgt
    by_cases hc : st.status = MDStatusT.censored
    · exact hc
    · exfalso
      unfold referendumCallStep at hgt
      simp [hc] at hgt
  · intro ops
    have h := run_preserves ops initState (by unfold Inv initState; simp)
    exact h.1

theorem referendum_created_at_most_once_witness :
    ({ status := MDStatusT.censored, hasReferendum := false,
        refCreations := 0 : TokenState }).status = MDStatusT.censored ∧
    (run [Op.referendumCall, Op.referendumResults true,
        Op.setUnvettedStatus MDStatusT.censored, Op.referendumCall]
      initState).refCreations ≤ 1 :=
  ⟨referendum_created_at_most_once.1
      { status := MDStatusT.censored, hasReferendum := false, refCreations := 0 }
      (by decide),
   referendum_created_at_most_once.2
      [Op.referendumCall, Op.referendumResults true,
        Op.setUnvettedStatus MDStatusT.censored, Op.referendumCall]⟩

end politeiad

namespace gitbe

/-- A parsed git commit as built by extractNextCommit: the commit hash, the
commit time, and the message lines (everything from the fifth log line of the
commit on). -/
structure GitCommit where
  Hash : String
  Time : Int
  Message : List String
deriving DecidableEq, Repr

/-- The character class backslash-s of the Go regexp package (RE2):
tab, newline, form feed, carriage return and space. -/
def goRegexpSpace (c : Char) : Bool :=
  c = '\t' || c = '\n' || c = '\x0c' || c = '\r' || c = ' '

/-- unicode.IsSpace, the separator class of strings.Fields: the ASCII white
space characters together with the Unicode White_Space code points. -/
def unicodeIsSpace (c : Char) : Bool :=
  c = '\t' || c = '\n' || c = '\x0b' || c = '\x0c' || c = '\r' || c = ' ' ||
  c.toNat = 0x85 || c.toNat = 0xa0 || c.toNat = 0x1680 ||
  (0x2000 ≤ c.toNat && c.toNat ≤ 0x200a) || c.toNat = 0x2028 ||
  c.toNat = 0x2029 || c.toNat = 0x202f || c.toNat = 0x205f || c.toNat = 0x3000

/-- Go strings.Fields: the substrings between runs of white space, empty
chunks dropped. -/
def fields (s : String) : List String :=
  ((s.toList.splitOnP unicodeIsSpace).filter (fun w => !w.isEmpty)).map
    (fun w => String.mk w)

/-- Returns the remainder of the character list after the literal, when the
list starts with the literal. -/
def stripLiteral : List Char → List Char → Option (List Char)
  | [], cs => some cs
  | _ :: _, [] => none
  | l :: ls, c :: cs => if c = l then stripLiteral ls cs else none

/-- The match-and-capture of a Go pattern of shape
marker backslash-s+ parenthesis backslash-S+ parenthesis, anchored at the
start of the given character list: the literal marker, at least one white
space character, then the capture group takes the maximal nonempty run of
non-white-space characters.  Returns FindStringSubmatch[1]; MatchString is
isSome of this. -/
def matchLiteralCapture (marker : String) (cs : List Char) : Option String :=
  match stripLiteral marker.toList cs with
  | none => none
  | some rest =>
    if (rest.takeWhile goRegexpSpace).isEmpty then none
    else
      let cap := (rest.dropWhile goRegexpSpace).takeWhile
        (fun c => !goRegexpSpace c)
      if cap.isEmpty then none else some (String.mk cap)

/-- The same pattern with a leading caret backslash-s* : leading white space
is skipped first (the marker starts with a non-space character, so the
greedy prefix is the only viable one). -/
def matchMarkerCapture (marker line : String) : Option String :=
  matchLiteralCapture marker (line.toList.dropWhile goRegexpSpace)

/-- Modelled from the spec: the marker constants markerAnchor and
markerAnchorConfirmation are defined in a gitbe source file that is not
included here; the commit-log marker grammar of the spec (section 6) fixes
the first-line markers of anchor and anchor-confirmation commits. -/
def markerAnchor : String := "anchor"

/-- Modelled from the spec: see markerAnchor. -/
def markerAnchorConfirmation : String := "anchor confirmation"

/-- regexAnchor of part_001: caret backslash-s* markerAnchor backslash-s+
capture backslash-S+ ; FindStringSubmatch[1]. -/
def regexAnchorFind (line : String) : Option String :=
  matchMarkerCapture markerAnchor line

/-- regexAnchorConfirmation of part_001: caret backslash-s*
markerAnchorConfirmation backslash-s+ capture backslash-S+ ; MatchString. -/
def regexAnchorConfirmationMatch (line : String) : Bool :=
  (matchMarkerCapture markerAnchorConfirmation line).isSome

/-- The result of a Go function that can also fail with an error value or
panic with an index-out-of-range. -/
inductive GoRes (α : Type) where
  | ok (a : α)
  | fail (msg : String)
  | oob
deriving DecidableEq, Repr

/-- regexCommitHash: caret, the literal commit, backslash-s+, capture
backslash-S+ (no leading white space is allowed). -/
def matchCommitHash (line : String) : Option String :=
  matchLiteralCapture "commit" line.toList

/-- regexCommitDate: caret, the literal Date:, backslash-s+, capture dot-plus.
The greedy run of white space backtracks just enough to leave one character
for the capture.  Log lines carry no newline character, so dot matches every
remaining character. -/
def matchCommitDate (line : String) : Option String :=
  match stripLiteral "Date:".toList line.toList with
  | none => none
  | some rest =>
    let k := (rest.takeWhile goRegexpSpace).length
    if k = 0 then none
    else if k < rest.length then some (String.mk (rest.drop k))
    else if 2 ≤ rest.length then some (String.mk (rest.drop (rest.length - 1)))
    else none

/-- Go part_001 (and part_000): extractNextCommit.  Reads logSlice[0]
(commit hash line), skips the author line, reads logSlice[2] (date line) and
collects the message from logSlice[4:] until the next commit-hash line.  The
library call time.Parse is abstracted as the parseDate parameter; index and
slice accesses outside the input produce the oob result. -/
def extractNextCommit (parseDate : String → Option Int)
    (logSlice : List String) : GoRes (GitCommit × Nat) :=
  match logSlice[0]? with
  | none => GoRes.oob
  | some firstLine =>
    match matchCommitHash firstLine with
    | none => GoRes.fail "commit expected"
    | some hash =>
      match logSlice[2]? with
      | none => GoRes.oob
      | some dateLine =>
        match matchCommitDate dateLine with
        | none => GoRes.fail "date expected"
        | some dateStr =>
          match parseDate dateStr with
          | none => GoRes.fail "unable to parse date"
          | some t =>
            if logSlice.length < 4 then GoRes.oob
            else
              let message := (logSlice.drop 4).takeWhile
                (fun line => (matchCommitHash line).isNone)
              GoRes.ok ({ Hash := hash, Time := t, Message := message },
                message.length + 4)

/-- C10: extractNextCommit validates only the commit-hash shape of line 0
before touching line 2 and the tail from line 4.  For every input of at least
four lines whose first line matches the commit-hash pattern, every access is
in bounds (whatever the date parser does), while a one-line input whose first
line matches the pattern drives the access to line 2 out of bounds. -/
theorem extractNextCommit_access_bounds :
    (∀ (parseDate : String → Option Int) (logSlice : List String),
      4 ≤ logSlice.length →
      (∀ firstLine, logSlice[0]? = some firstLine →
        (matchCommitHash firstLine).isSome) →
      extractNextCommit parseDate logSlice ≠ GoRes.oob) ∧
    (∃ logSlice : List String, 1 ≤ logSlice.length ∧ logSlice.length ≤ 3 ∧
      (∀ firstLine, logSlice[0]? = some firstLine →
        (matchCommitHash firstLine).isSome) ∧
      ∀ parseDate : String → Option Int,
        extractNextCommit parseDate logSlice = GoRes.oob) := by
  constructor
  · intro parseDate logSlice hlen hfirst
    rcases logSlice with _ | ⟨a, rest⟩
    · simp at hlen
    rcases rest with _ | ⟨b, rest⟩
    · simp at hlen
    rcases rest with _ | ⟨c, rest⟩
    · simp at hlen
    rcases rest with _ | ⟨d, rest⟩
    · simp at hlen
    have ha := hfirst a rfl
    rcases hmh : matchCommitHash a with _ | hash
    · rw [hmh] at ha
      simp at ha
    rcases hmd : matchCommitDate c with _ | dateStr
    · simp [extractNextCommit, hmh, hmd]
    · rcases hpd : parseDate dateStr with _ | t <;>
        simp [extractNextCommit, hmh, hmd, hpd]
  · refine ⟨["commit abc"], by decide, by decide, ?_, ?_⟩
    · intro firstLine hf
      simp at hf
      rw [← hf]
      decide
    · intro parseDate
      rfl

theorem extractNextCommit_access_bounds_witness :
    extractNextCommit (fun _ => Option.none)
        ["commit abc", "Author: a", "Date: yesterday", "", "message"]
      ≠ GoRes.oob :=
  extractNextCommit_access_bounds.1 (fun _ => Option.none)
    ["commit abc", "Author: a", "Date: yesterday", "", "message"]
    (by decide)
    (fun firstLine hf => by
      simp at hf
      rw [← hf]
      decide)

/-- Whether a commit is an anchor commit: the first message line is not an
anchor confirmation and matches the anchor pattern.  This is the
classification both readLastAnchorRecord and readUnconfirmedAnchorRecord
apply. -/
def isAnchorCommit (c : GitCommit) : Bool :=
  match c.Message[0]? with
  | some msg0 =>
    !regexAnchorConfirmationMatch msg0 && (regexAnchorFind msg0).isSome
  | none => false

/-- The Merkle root of an anchor commit (none for other commits). -/
def anchorRootOf (c : GitCommit) : Option String :=
  match c.Message[0]? with
  | some msg0 =>
    if regexAnchorConfirmationMatch msg0 then none else regexAnchorFind msg0
  | none => none

/-- The Merkle root listed by a confirmation commit: the first white-space
delimited token of the message line at offset 2 (none for other commits). -/
def confirmationRootOf (c : GitCommit) : Option String :=
  match c.Message[0]? with
  | some msg0 =>
    if regexAnchorConfirmationMatch msg0 then
      match c.Message[2]? with
      | some msg2 => (fields msg2).head?
      | none => none
    else none
  | none => none

/-- The root a commit contributes to the allAnchors list of part_001
readUnconfirmedAnchorRecord: confirmation commits contribute their confirmed
root, anchor commits their own root. -/
def logRootOf (c : GitCommit) : Option String :=
  match confirmationRootOf c with
  | some m => some m
  | none => anchorRootOf c

/-- A commit the anchor index can process without an index-out-of-range:
the message is nonempty, and a confirmation commit has a message line at
offset 2 holding at least one field. -/
def wfCommit (c : GitCommit) : Bool :=
  match c.Message[0]? with
  | none => false
  | some msg0 =>
    if regexAnchorConfirmationMatch msg0 then
      match c.Message[2]? with
      | none => false
      | some msg2 => !(fields msg2).isEmpty
    else true

/-- Go part_001: the first loop of readUnconfirmedAnchorRecord.  Walks the
commits, appending to allAnchors the Merkle roots of confirmation and anchor
commits and recording the confirmed roots (the Go map of confirmed anchors is
modelled as the list of its keys). -/
def scanAnchors : List GitCommit → List String → List String →
    GoRes (List String × List String)
  | [], allAnchors, confirmedAnchors => GoRes.ok (allAnchors, confirmedAnchors)
  | commit :: rest, allAnchors, confirmedAnchors =>
    match commit.Message[0]? with
    | none => GoRes.oob
    | some msg0 =>
      if regexAnchorConfirmationMatch msg0 then
        match commit.Message[2]? with
        | none => GoRes.oob
        | some msg2 =>
          match fields msg2 with
          | [] => GoRes.oob
          | merkleStr :: _ =>
            scanAnchors rest (allAnchors ++ [merkleStr])
              (confirmedAnchors ++ [merkleStr])
      else
        match regexAnchorFind msg0 with
        | some merkleStr =>
          scanAnchors rest (allAnchors ++ [merkleStr]) confirmedAnchors
        | none => scanAnchors rest allAnchors confirmedAnchors

/-- Go part_001: readUnconfirmedAnchorRecord.  The commits parameter stands
for the getCommitsFromLog output: the vetted git log in reverse chronological
order.  The second loop keeps the roots that are not in the confirmed set. -/
def readUnconfirmedAnchorRecord (commits : List GitCommit) :
    GoRes (List String) :=
  match scanAnchors commits [] [] with
  | GoRes.ok (allAnchors, confirmedAnchors) =>
    GoRes.ok (allAnchors.filter (fun m => !confirmedAnchors.contains m))
  | GoRes.fail msg => GoRes.fail msg
  | GoRes.oob => GoRes.oob

/-- Modelled from the spec: UnconfirmedAnchors is the list of Merkle roots of
anchor commits minus the roots listed in confirmation commits, in
anchor-commit order. -/
def specUnconfirmedAnchors (commits : List GitCommit) : List String :=
  (commits.filterMap anchorRootOf).filter
    (fun m => !(commits.filterMap confirmationRootOf).contains m)

theorem scanAnchors_ok (commits : List GitCommit)
    (hwf : ∀ c ∈ commits, wfCommit c = true) :
    ∀ accA accC, scanAnchors commits accA accC
      = GoRes.ok (accA ++ commits.filterMap logRootOf,
          accC ++ commits.filterMap confirmationRootOf) := by
  induction commits with
  | nil =>
    intro accA accC
    simp [scanAnchors]
  | cons c rest ih =>
    intro accA accC
    have hwfc : wfCommit c = true := hwf c (by simp)
    have hwfrest : ∀ x ∈ rest, wfCommit x = true := by
      intro x hx
      exact hwf x (by simp [hx])
    rcases hm0 : c.Message[0]? with _ | msg0
    · simp [wfCommit, hm0] at hwfc
    by_cases hconf : regexAnchorConfirmationMatch msg0
    · rcases hm2 : c.Message[2]? with _ | msg2
      · simp [wfCommit, hm0, hconf, hm2] at hwfc
      rcases hfs : fields msg2 with _ | ⟨w, ws⟩
      · simp [wfCommit, hm0, hconf, hm2, hfs] at hwfc
      have hcr : confirmationRootOf c = some w := by
        simp [confirmationRootOf, hm0, hconf, hm2, hfs]
      have hlr : logRootOf c = some w := by
        unfold logRootOf
        rw [hcr]
      have hstep : scanAnchors (c :: rest) accA accC
          = scanAnchors rest (accA ++ [w]) (accC ++ [w]) := by
        conv_lhs => rw [scanAnchors]
        simp [hm0, hconf, hm2, hfs]
      rw [hstep, ih hwfrest, List.filterMap_cons, List.filterMap_cons]
      simp [hlr, hcr]
    · have hcr : confirmationRootOf c = none := by
        simp [confirmationRootOf, hm0, hconf]
      have hlr : logRootOf c = anchorRootOf c := by
        unfold logRootOf
        rw [hcr]
      have har : anchorRootOf c = regexAnchorFind msg0 := by
        simp [anchorRootOf, hm0, hconf]
      rcases haf : regexAnchorFind msg0 with _ | merkleStr
      · have hstep : scanAnchors (c :: rest) accA accC
            = scanAnchors rest accA accC := by
          conv_lhs => rw [scanAnchors]
          simp [hm0, hconf, haf]
        rw [hstep, ih hwfrest, List.filterMap_cons, List.filterMap_cons]
        simp [hlr, har, haf, hcr]
      · have hstep : scanAnchors (c :: rest) accA accC
            = scanAnchors rest (accA ++ [merkleStr]) accC := by
          conv_lhs => rw [scanAnchors]
          simp [hm0, hconf, haf]
        rw [hstep, ih hwfrest, List.filterMap_cons, List.filterMap_cons]
        simp [hlr, har, haf, hcr]

theorem filter_logRoots (commits : List GitCommit) (confs : List String)
    (hsub : ∀ c ∈ commits, ∀ m, confirmationRootOf c = some m →
      confs.contains m = true) :
    (commits.filterMap logRootOf).filter (fun m => !confs.contains m)
      = (commits.filterMap anchorRootOf).filter (fun m => !confs.contains m) := by
  induction commits with
  | nil => simp
  | cons c rest ih =>
    have hsubrest : ∀ x ∈ rest, ∀ m, confirmationRootOf x = some m →
        confs.contains m = true := by
      intro x hx
      exact hsub x (by simp [hx])
    rcases hcr : confirmationRootOf c with _ | m
    · have hlr : logRootOf c = anchorRootOf c := by
        unfold logRootOf
        rw [hcr]
      rw [List.filterMap_cons, List.filterMap_cons, hlr]
      rcases har : anchorRootOf c with _ | a
      · exact ih hsubrest
      · simp only [List.filter_cons]
        rw [ih hsubrest]
    · have hlr : logRootOf c = some m := by
        unfold logRootOf
        rw [hcr]
      have hanc : anchorRootOf c = none := by
        unfold anchorRootOf confirmationRootOf at *
        rcases hm0 : c.Message[0]? with _ | msg0
        · rfl
        · rw [hm0] at hcr
          by_cases hconf : regexAnchorConfirmationMatch msg0
          · simp [hconf]
          · simp [hconf] at hcr
      have hin : confs.contains m = true := hsub c (by simp) m hcr
      rw [List.filterMap_cons, List.filterMap_cons, hlr, hanc]
      simp only [List.filter_cons, hin, Bool.not_true]
      simp only [Bool.false_eq_true, if_false]
      exact ih hsubrest

/-- C2: on every commit log whose commits the anchor index can process,
readUnconfirmedAnchorRecord returns exactly the Merkle roots of the anchor
commits that no anchor-confirmation commit lists, in the order in which the
anchor commits appear in the log. -/
theorem readUnconfirmedAnchorRecord_spec (commits : List GitCommit)
    (hwf : ∀ c ∈ commits, wfCommit c = true) :
    readUnconfirmedAnchorRecord commits
      = GoRes.ok (specUnconfirmedAnchors commits) := by
  unfold readUnconfirmedAnchorRecord
  rw [scanAnchors_ok commits hwf [] []]
  simp only [List.nil_append]
  rw [filter_logRoots commits (commits.filterMap confirmationRootOf)]
  · rfl
  · intro c hc m hm
    have hmem : m ∈ commits.filterMap confirmationRootOf :=
      List.mem_filterMap.mpr ⟨c, hc, hm⟩
    exact List.elem_iff.mpr hmem

/-- A three-commit sample log: one confirmation commit confirming root aaa,
one anchor commit with root aaa, one anchor commit with root bbb. -/
def sampleLog : List GitCommit :=
  [ { Hash := "c3", Time := 3,
      Message := ["anchor confirmation aaa", "", "aaa tx 1500000000", ""] },
    { Hash := "c2", Time := 2,
      Message := ["anchor aaa", "", "d1 add record", ""] },
    { Hash := "c1", Time := 1,
      Message := ["anchor bbb", "", "d0 add record", ""] } ]

theorem readUnconfirmedAnchorRecord_spec_witness :
    readUnconfirmedAnchorRecord sampleLog
      = GoRes.ok (specUnconfirmedAnchors sampleLog) :=
  readUnconfirmedAnchorRecord_spec sampleLog (by decide)

/-- Go struct LastAnchor of part_001: the last anchored commit digest, the
anchor time and the anchor Merkle root (part_001 stores the two roots as the
raw bytes of the matched strings, kept as strings here). -/
structure LastAnchor where
  Last : String
  Time : Int
  Merkle : String
deriving DecidableEq, Repr

/-- The Go zero value of LastAnchor, returned when no anchor commit exists. -/
def emptyLastAnchor : LastAnchor := { Last := "", Time := 0, Merkle := "" }

/-- Go part_001: the loop of readLastAnchorRecord that finds the first commit
whose first message line is an anchor and not an anchor confirmation.  The
commit list is the git log in reverse chronological order, so the first hit
is the most recent anchor commit. -/
def findAnchorCommit : List GitCommit → GoRes (Option GitCommit)
  | [] => GoRes.ok Option.none
  | commit :: rest =>
    match commit.Message[0]? with
    | none => GoRes.oob
    | some msg0 =>
      if !regexAnchorConfirmationMatch msg0 && (regexAnchorFind msg0).isSome then
        GoRes.ok (some commit)
      else findAnchorCommit rest

/-- Go part_001: readLastAnchorRecord.  Returns the blank LastAnchor when no
anchor commit is found; otherwise Merkle is the capture of the anchor pattern
on the first message line, Time is the commit time, and Last is the first
white-space delimited token of the message line at offset 2 (the top body
line).  FindStringSubmatch and Fields indexing panics surface as oob. -/
def readLastAnchorRecord (commits : List GitCommit) : GoRes LastAnchor :=
  match findAnchorCommit commits with
  | GoRes.oob => GoRes.oob
  | GoRes.fail m => GoRes.fail m
  | GoRes.ok Option.none => GoRes.ok emptyLastAnchor
  | GoRes.ok (some anchorCommit) =>
    match anchorCommit.Message[0]? with
    | none => GoRes.oob
    | some msg0 =>
      match regexAnchorFind msg0 with
      | none => GoRes.oob
      | some merkleStr =>
        match anchorCommit.Message[2]? with
        | none => GoRes.oob
        | some topCommitLine =>
          match fields topCommitLine with
          | [] => GoRes.oob
          | topCommitHash :: _ =>
            GoRes.ok
              { Last := topCommitHash, Time := anchorCommit.Time,
                Merkle := merkleStr }

theorem findAnchorCommit_eq (commits : List GitCommit)
    (hmsg : ∀ c ∈ commits, c.Message ≠ []) :
    findAnchorCommit commits = GoRes.ok (commits.find? isAnchorCommit) := by
  induction commits with
  | nil => simp [findAnchorCommit]
  | cons c rest ih =>
    have hc : c.Message ≠ [] := hmsg c (by simp)
    have hrest : ∀ x ∈ rest, x.Message ≠ [] := fun x hx => hmsg x (by simp [hx])
    obtain ⟨m, ms, hmm⟩ := List.exists_cons_of_ne_nil hc
    have hm0 : c.Message[0]? = some m := by rw [hmm]; simp
    have heq : isAnchorCommit c
        = (!regexAnchorConfirmationMatch m && (regexAnchorFind m).isSome) := by
      simp [isAnchorCommit, hm0]
    by_cases hanc :
        (!regexAnchorConfirmationMatch m && (regexAnchorFind m).isSome) = true
    · conv_lhs => rw [findAnchorCommit]
      simp [hm0, hanc, List.find?_cons, heq]
    · conv_lhs => rw [findAnchorCommit]
      rw [List.find?_cons]
      have hfalse : isAnchorCommit c = false := by
        rw [heq]
        exact Bool.not_eq_true _ ▸ (by simpa using hanc)
      simp [hm0, hanc, hfalse, ih hrest]

/-- C5: on a commit log whose commit messages are nonempty, if no commit
classifies as an anchor commit then readLastAnchorRecord returns the blank
LastAnchor; otherwise it returns the data of the most recent anchor commit
(the first in the reverse-chronological log): Merkle is the root captured on
its first message line, Time its commit time, and Last the first white-space
delimited token of its message line at offset 2, the commit digest on the
first body line. -/
theorem readLastAnchorRecord_spec (commits : List GitCommit)
    (hmsg : ∀ c ∈ commits, c.Message ≠ []) :
    (commits.find? isAnchorCommit = none →
      readLastAnchorRecord commits = GoRes.ok emptyLastAnchor) ∧
    (∀ c msg0 merkleStr msg2 w ws,
      commits.find? isAnchorCommit = some c →
      c.Message[0]? = some msg0 →
      regexAnchorFind msg0 = some merkleStr →
      c.Message[2]? = some msg2 →
      fields msg2 = w :: ws →
      readLastAnchorRecord commits
        = GoRes.ok { Last := w, Time := c.Time, Merkle := merkleStr }) := by
  constructor
  · intro hnone
    unfold readLastAnchorRecord
    rw [findAnchorCommit_eq commits hmsg, hnone]
  · intro c msg0 merkleStr msg2 w ws hfind hm0 hfindm hm2 hfs
    unfold readLastAnchorRecord
    rw [findAnchorCommit_eq commits hmsg]
    simp only [hfind, hm0, hfindm, hm2, hfs]

theorem readLastAnchorRecord_spec_witness :
    readLastAnchorRecord sampleLog
      = GoRes.ok { Last := "d1", Time := 2, Merkle := "aaa" } :=
  (readLastAnchorRecord_spec sampleLog (by decide)).2
    { Hash := "c2", Time := 2, Message := ["anchor aaa", "", "d1 add record", ""] }
    "anchor aaa" "aaa" "d1 add record" "d1" ["add", "record"]
    (by decide) rfl (by decide) rfl (by decide)

end gitbe

namespace database

/-- The standard base64 alphabet, used by encoding/json for []byte values. -/
def b64AlphabetL : List Char :=
  ['A', 'B', 'C', 'D', 'E', 'F', 'G', 'H', 'I', 'J', 'K', 'L', 'M',
   'N', 'O', 'P', 'Q', 'R', 'S', 'T', 'U', 'V', 'W', 'X', 'Y', 'Z',
   'a', 'b', 'c', 'd', 'e', 'f', 'g', 'h', 'i', 'j', 'k', 'l', 'm',
   'n', 'o', 'p', 'q', 'r', 's', 't', 'u', 'v', 'w', 'x', 'y', 'z',
   '0', '1', '2', '3', '4', '5', '6', '7', '8', '9', '+', '/']

/-- The alphabet character of a six-bit value. -/
def b64Char (v : Nat) : Char := b64AlphabetL.getD v 'A'

def b64ValAux : List Char → Nat → Char → Option Nat
  | [], _, _ => none
  | a :: rest, i, c => if c = a then some i else b64ValAux rest (i + 1) c

/-- The six-bit value of an alphabet character. -/
def b64Val (c : Char) : Option Nat := b64ValAux b64AlphabetL 0 c

/-- Standard base64 encoding with padding of a byte list (values below 256),
three bytes to four characters. -/
def b64EncodeChunks : List Nat → List Char
  | [] => []
  | [a] => [b64Char (a / 4), b64Char (a % 4 * 16), '=', '=']
  | [a, b] =>
    [b64Char (a / 4), b64Char (a % 4 * 16 + b / 16), b64Char (b % 16 * 4), '=']
  | a :: b :: c :: rest =>
    b64Char (a / 4) :: b64Char (a % 4 * 16 + b / 16) ::
      b64Char (b % 16 * 4 + c / 64) :: b64Char (c % 64) :: b64EncodeChunks rest

/-- Standard base64 decoding with padding, four characters to three bytes;
a padded group must end the input. -/
def b64DecodeChunks : List Char → Option (List Nat)
  | [] => some []
  | c0 :: c1 :: c2 :: c3 :: rest =>
    match b64Val c0, b64Val c1 with
    | some s0, some s1 =>
      if c2 = '=' then
        if c3 = '=' && rest.isEmpty then some [s0 * 4 + s1 / 16] else none
      else
        match b64Val c2 with
        | some s2 =>
          if c3 = '=' then
            if rest.isEmpty then
              some [s0 * 4 + s1 / 16, s1 % 16 * 16 + s2 / 4]
            else none
          else
            match b64Val c3 with
            | some s3 =>
              match b64DecodeChunks rest with
              | some bs =>
                some ((s0 * 4 + s1 / 16) :: (s1 % 16 * 16 + s2 / 4) ::
                  (s2 % 4 * 64 + s3) :: bs)
              | none => none
            | none => none
        | none => none
    | _, _ => none
  | _ => none

def b64Encode (bs : List Nat) : String := String.mk (b64EncodeChunks bs)

def b64Decode (s : String) : Option (List Nat) := b64DecodeChunks s.toList

theorem b64Val_b64Char_fin : ∀ v : Fin 64, b64Val (b64Char v.val) = some v.val := by
  decide

theorem b64Char_ne_pad_fin : ∀ v : Fin 64, b64Char v.val ≠ '=' := by
  decide

theorem b64Val_b64Char (v : Nat) (h : v < 64) : b64Val (b64Char v) = some v :=
  b64Val_b64Char_fin ⟨v, h⟩

theorem b64Char_ne_pad (v : Nat) (h : v < 64) : b64Char v ≠ '=' :=
  b64Char_ne_pad_fin ⟨v, h⟩

theorem b64_roundtrip (bs : List Nat) (h : ∀ b ∈ bs, b < 256) :
    b64DecodeChunks (b64EncodeChunks bs) = some bs := by
  induction bs using b64EncodeChunks.induct with
  | case1 =>
    simp [b64EncodeChunks, b64DecodeChunks]
  | case2 a =>
    have ha : a < 256 := h a (by simp)
    have h0 : a / 4 < 64 := by omega
    have h1 : a % 4 * 16 < 64 := by omega
    simp [b64EncodeChunks, b64DecodeChunks, b64Val_b64Char _ h0,
      b64Val_b64Char _ h1]
    omega
  | case3 a b =>
    have ha : a < 256 := h a (by simp)
    have hb : b < 256 := h b (by simp)
    have h0 : a / 4 < 64 := by omega
    have h1 : a % 4 * 16 + b / 16 < 64 := by omega
    have h2 : b % 16 * 4 < 64 := by omega
    simp [b64EncodeChunks, b64DecodeChunks, b64Val_b64Char _ h0,
      b64Val_b64Char _ h1, b64Val_b64Char _ h2, b64Char_ne_pad _ h2]
    constructor
    · omega
    · omega
  | case4 a b c rest ih =>
    have ha : a < 256 := h a (by simp)
    have hb : b < 256 := h b (by simp)
    have hc : c < 256 := h c (by simp)
    have hrest : ∀ x ∈ rest, x < 256 := by
      intro x hx
      exact h x (by simp [hx])
    have h0 : a / 4 < 64 := by omega
    have h1 : a % 4 * 16 + b / 16 < 64 := by omega
    have h2 : b % 16 * 4 + c / 64 < 64 := by omega
    have h3 : c % 64 < 64 := by omega
    simp [b64EncodeChunks, b64DecodeChunks, b64Val_b64Char _ h0,
      b64Val_b64Char _ h1, b64Val_b64Char _ h2, b64Val_b64Char _ h3,
      b64Char_ne_pad _ h2, b64Char_ne_pad _ h3, ih hrest]
    refine ⟨by omega, by omega, by omega⟩

/-- JSON values, the intermediate form of json.Marshal / json.Unmarshal for
the record types below. -/
inductive Json where
  | null
  | num (n : Int)
  | str (s : String)
  | arr (xs : List Json)
  | obj (fields : List (String × Json))

/-- Go struct Anchor of database.go.  AnchorType (uint32) is modelled as a
Nat, []byte as a list of byte values. -/
structure Anchor where
  «Type» : Nat
  Digests : List (List Nat)
  Messages : List String
  Time : Int
  ChainTimestamp : Int
  Transaction : String
deriving DecidableEq, Repr

/-- Go struct LastAnchor of database.go. -/
structure LastAnchor where
  Last : List Nat
  Time : Int
  Merkle : List Nat
deriving DecidableEq, Repr

/-- Go struct UnconfirmedAnchor of database.go. -/
structure UnconfirmedAnchor where
  Merkles : List (List Nat)
deriving DecidableEq, Repr

/-- json.Marshal of a []byte: the base64 string of the bytes. -/
def encodeBytes (bs : List Nat) : Json := Json.str (b64Encode bs)

/-- Go: encodeAnchor = json.Marshal of an Anchor.  encoding/json renders a
struct as an object with the exported field names in declaration order,
integers as numbers, strings as strings and slices as arrays. -/
def encodeAnchor (anchor : Anchor) : Json :=
  Json.obj
    [("Type", Json.num (Int.ofNat anchor.«Type»)),
     ("Digests", Json.arr (anchor.Digests.map encodeBytes)),
     ("Messages", Json.arr (anchor.Messages.map Json.str)),
     ("Time", Json.num anchor.Time),
     ("ChainTimestamp", Json.num anchor.ChainTimestamp),
     ("Transaction", Json.str anchor.Transaction)]

/-- Go: encodeLastAnchor = json.Marshal of a LastAnchor. -/
def encodeLastAnchor (lastAnchor : LastAnchor) : Json :=
  Json.obj
    [("Last", encodeBytes lastAnchor.Last),
     ("Time", Json.num lastAnchor.Time),
     ("Merkle", encodeBytes lastAnchor.Merkle)]

/-- Go: encodeUnconfirmedAnchor = json.Marshal of an UnconfirmedAnchor. -/
def encodeUnconfirmedAnchor (unconfirmed : UnconfirmedAnchor) : Json :=
  Json.obj [("Merkles", Json.arr (unconfirmed.Merkles.map encodeBytes))]

/-- The field lookup of json.Unmarshal into a struct (the encoder emits the
exact field names, so the case-insensitive fallback never fires). -/
def lookupField (fs : List (String × Json)) (k : String) : Option Json :=
  match fs with
  | [] => none
  | (k0, v) :: rest => if k0 = k then some v else lookupField rest k

/-- Unmarshal into an int64 field: a missing field or null leaves the zero
value, a number is taken exactly, any other value is an error. -/
def decodeIntField (fs : List (String × Json)) (k : String) : Option Int :=
  match lookupField fs k with
  | none => some 0
  | some Json.null => some 0
  | some (Json.num n) => some n
  | some _ => none

/-- Unmarshal into a uint32 field (AnchorType). -/
def decodeNatField (fs : List (String × Json)) (k : String) : Option Nat :=
  match lookupField fs k with
  | none => some 0
  | some Json.null => some 0
  | some (Json.num n) => if 0 ≤ n then some n.toNat else none
  | some _ => none

/-- Unmarshal into a string field. -/
def decodeStringField (fs : List (String × Json)) (k : String) : Option String :=
  match lookupField fs k with
  | none => some ""
  | some Json.null => some ""
  | some (Json.str s) => some s
  | some _ => none

/-- Unmarshal of a JSON array elementwise; any element error is an error. -/
def decodeList {α : Type} (f : Json → Option α) : List Json → Option (List α)
  | [] => some []
  | j :: rest =>
    match f j with
    | some a =>
      match decodeList f rest with
      | some as => some (a :: as)
      | none => none
    | none => none

/-- Unmarshal of a JSON value into a []byte: null gives the nil slice, a
string is base64-decoded. -/
def decodeBytes : Json → Option (List Nat)
  | Json.null => some []
  | Json.str s => b64Decode s
  | _ => none

/-- Unmarshal into a []byte field. -/
def decodeBytesField (fs : List (String × Json)) (k : String) :
    Option (List Nat) :=
  match lookupField fs k with
  | none => some []
  | some j => decodeBytes j

/-- Unmarshal into a [][]byte field. -/
def decodeBytesArrField (fs : List (String × Json)) (k : String) :
    Option (List (List Nat)) :=
  match lookupField fs k with
  | none => some []
  | some Json.null => some []
  | some (Json.arr xs) => decodeList decodeBytes xs
  | some _ => none

/-- Unmarshal into a []string field. -/
def decodeStrArrField (fs : List (String × Json)) (k : String) :
    Option (List String) :=
  match lookupField fs k with
  | none => some []
  | some Json.null => some []
  | some (Json.arr xs) =>
    decodeList (fun j =>
      match j with
      | Json.str s => some s
      | _ => none) xs
  | some _ => none

/-- Go: DecodeAnchor = json.Unmarshal of a payload into an Anchor. -/
def DecodeAnchor (payload : Json) : Option Anchor :=
  match payload with
  | Json.obj fs =>
    match decodeNatField fs "Type", decodeBytesArrField fs "Digests",
        decodeStrArrField fs "Messages", decodeIntField fs "Time",
        decodeIntField fs "ChainTimestamp",
        decodeStringField fs "Transaction" with
    | some t, some ds, some ms, some ti, some ct, some tx =>
      some { «Type» := t, Digests := ds, Messages := ms, Time := ti,
             ChainTimestamp := ct, Transaction := tx }
    | _, _, _, _, _, _ => none
  | _ => none

/-- Go: DecodeLastAnchor = json.Unmarshal of a payload into a LastAnchor. -/
def DecodeLastAnchor (payload : Json) : Option LastAnchor :=
  match payload with
  | Json.obj fs =>
    match decodeBytesField fs "Last", decodeIntField fs "Time",
        decodeBytesField fs "Merkle" with
    | some l, some t, some m => some { Last := l, Time := t, Merkle := m }
    | _, _, _ => none
  | _ => none

/-- Go: DecodeUnconfirmedAnchor = json.Unmarshal of a payload into an
UnconfirmedAnchor. -/
def DecodeUnconfirmedAnchor (payload : Json) : Option UnconfirmedAnchor :=
  match payload with
  | Json.obj fs =>
    match decodeBytesArrField fs "Merkles" with
    | some ms => some { Merkles := ms }
    | none => none
  | _ => none

theorem decodeBytes_encodeBytes (bs : List Nat) (h : ∀ b ∈ bs, b < 256) :
    decodeBytes (encodeBytes bs) = some bs := by
  simp [decodeBytes, encodeBytes, b64Decode, b64Encode]
  exact b64_roundtrip bs h

theorem decodeList_decodeBytes (ds : List (List Nat))
    (h : ∀ d ∈ ds, ∀ b ∈ d, b < 256) :
    decodeList decodeBytes (ds.map encodeBytes) = some ds := by
  induction ds with
  | nil => simp [decodeList]
  | cons d rest ih =>
    have hd : ∀ b ∈ d, b < 256 := h d (by simp)
    have hrest : ∀ x ∈ rest, ∀ b ∈ x, b < 256 := by
      intro x hx
      exact h x (by simp [hx])
    simp [decodeList, decodeBytes_encodeBytes d hd, ih hrest]

theorem decodeList_str (ms : List String) :
    decodeList (fun j =>
      match j with
      | Json.str s => some s
      | _ => none) (ms.map Json.str) = some ms := by
  induction ms with
  | nil => simp [decodeList]
  | cons m rest ih => simp [decodeList, ih]

/-- C9: decoding the JSON encoding of any Anchor, LastAnchor or
UnconfirmedAnchor value (with byte values below 256, as Go bytes are) returns
a structure equal to the original: DecodeAnchor, DecodeLastAnchor and
DecodeUnconfirmedAnchor invert encodeAnchor, encodeLastAnchor and
encodeUnconfirmedAnchor. -/
theorem decode_encode_roundtrip (a : Anchor) (la : LastAnchor)
    (ua : UnconfirmedAnchor)
    (ha : ∀ d ∈ a.Digests, ∀ b ∈ d, b < 256)
    (hl1 : ∀ b ∈ la.Last, b < 256)
    (hl2 : ∀ b ∈ la.Merkle, b < 256)
    (hu : ∀ m ∈ ua.Merkles, ∀ b ∈ m, b < 256) :
    DecodeAnchor (encodeAnchor a) = some a ∧
    DecodeLastAnchor (encodeLastAnchor la) = some la ∧
    DecodeUnconfirmedAnchor (encodeUnconfirmedAnchor ua) = some ua := by
  refine ⟨?_, ?_, ?_⟩
  · simp [DecodeAnchor, encodeAnchor, decodeNatField, decodeBytesArrField,
      decodeStrArrField, decodeIntField, decodeStringField, lookupField,
      decodeList_decodeBytes a.Digests ha, decodeList_str]
  · simp [DecodeLastAnchor, encodeLastAnchor, decodeBytesField,
      decodeIntField, lookupField, decodeBytes_encodeBytes la.Last hl1,
      decodeBytes_encodeBytes la.Merkle hl2]
  · simp [DecodeUnconfirmedAnchor, encodeUnconfirmedAnchor,
      decodeBytesArrField, lookupField, decodeList_decodeBytes ua.Merkles hu]

/-- Sample records for the witness. -/
def sampleAnchor : Anchor :=
  { «Type» := 1, Digests := [[0, 255, 7], [128]],
    Messages := ["add record", "update record"], Time := 1500000000,
    ChainTimestamp := 0, Transaction := "" }

def sampleLastAnchor : LastAnchor :=
  { Last := [1, 2, 3], Time := 1500000000, Merkle := [255, 0] }

def sampleUnconfirmedAnchor : UnconfirmedAnchor :=
  { Merkles := [[17, 34], []] }

theorem decode_encode_roundtrip_witness :
    DecodeAnchor (encodeAnchor sampleAnchor) = some sampleAnchor ∧
    DecodeLastAnchor (encodeLastAnchor sampleLastAnchor)
      = some sampleLastAnchor ∧
    DecodeUnconfirmedAnchor (encodeUnconfirmedAnchor sampleUnconfirmedAnchor)
      = some sampleUnconfirmedAnchor :=
  decode_encode_roundtrip sampleAnchor sampleLastAnchor sampleUnconfirmedAnchor
    (by decide) (by decide) (by decide) (by decide)

end database

end Politeia
